import Mathlib

/-!
Verification of the tree classifier of the `pfp` project picker
(src/fs.rs, src/config.rs, src/selectors.rs).

Embedding conventions:
* Filesystem paths are modelled as segment lists (`List String`); the
  source builds path strings with `entry.path()`, i.e. parent joined
  with the entry name, which corresponds to `parent ++ [name]` here.
* The output collection is `HashMap<String, ()>` in the source; it is
  modelled as an insertion-ordered key list (`insertKey` inserts a key
  only when absent, which matches `HashMap::insert` with unit values
  up to key-set semantics).
* `RegexSet::new` / `RegexSet::matches` from the `regex` crate are
  modelled by a `RegexModel`: `setNew pats` returns `none` when the
  pattern set does not compile and otherwise a match predicate.
* Symlink resolution is pre-applied in the tree: `FSNode.dir` covers
  directories and symlinks to directories (`is_dir`), `FSNode.file`
  files and symlinks to files (`is_file`), `FSNode.other` broken
  symlinks and the like. An unreadable directory is `dir false _`
  (`read_dir` fails on it).
-/

namespace Pfp

/-- A filesystem tree node, with symlinks already resolved. -/
inductive FSNode : Type where
  | dir : Bool → List (String × FSNode) → FSNode
  | file : FSNode
  | other : FSNode

/-- Model of `std::fs::read_dir` followed by `.flatten()`:
`some entries` for a readable directory, `none` when reading fails
(not a directory, permission denied, race-deleted...). -/
def readDir : FSNode → Option (List (String × FSNode))
  | FSNode.dir true entries => some entries
  | _ => none

/-- Model of `fs::is_dir` after symlink resolution. -/
def isDirNode : FSNode → Bool
  | FSNode.dir _ _ => true
  | _ => false

/-- Model of `fs::is_file` after symlink resolution. -/
def isFileNode : FSNode → Bool
  | FSNode.file => true
  | _ => false

/-- Abstract model of the `regex` crate's `RegexSet`:
`setNew pats = none` models a compilation error (`RegexSet::new`
returning `Err`), `some f` a compiled set where `f name` models
`set.matches(name).len() > 0`. -/
structure RegexModel where
  setNew : List String → Option (String → Bool)

/-- `config::Markers`. -/
structure Markers where
  exact : List String
  pattern : List String
  traverse_hidden : Bool
  chain_root_markers : Bool

/-- `config::Ignore`. -/
structure Ignore where
  exact : List String
  pattern : List String
  chain_root_ignore : Bool

/-- `config::Mode`. -/
inductive Mode : Type where
  | Dir : Mode
  | File : Mode

/-- `config::IncludeEntry` (the `paths` field lives at the caller). -/
structure IncludeEntry where
  mode : Mode
  markers : Markers
  ignore : Ignore
  include_intermediate_paths : Bool
  yield_on_marker : Bool
  depth : Nat

/-- The root-level parts of `config::Config` used by the classifier. -/
structure Config where
  markers : Markers
  ignore : Ignore

/-- Effective exact markers: `include_entry.markers.exact` chained with
the root markers when `chain_root_markers` (fs.rs lines 85-95). -/
def effMarkersExact (e : IncludeEntry) (config : Config) : List String :=
  e.markers.exact ++ (if e.markers.chain_root_markers then config.markers.exact else [])

/-- Effective marker patterns (fs.rs lines 96-106). -/
def effMarkersPat (e : IncludeEntry) (config : Config) : List String :=
  e.markers.pattern ++ (if e.markers.chain_root_markers then config.markers.pattern else [])

/-- Effective exact ignore names (fs.rs lines 221-231). -/
def effIgnoreExact (e : IncludeEntry) (config : Config) : List String :=
  e.ignore.exact ++ (if e.ignore.chain_root_ignore then config.ignore.exact else [])

/-- Effective ignore patterns (fs.rs lines 232-242). -/
def effIgnorePat (e : IncludeEntry) (config : Config) : List String :=
  e.ignore.pattern ++ (if e.ignore.chain_root_ignore then config.ignore.pattern else [])

/-- Model of Rust's `name.starts_with('.')`: the first character of the
name is a dot. -/
def startsWithDot (name : String) : Bool :=
  match name.data with
  | [] => false
  | c :: _ => c = '.'

/-- The per-entry filter of `get_not_ignored_dir_entries`
(fs.rs lines 254-261): not hidden (or hidden traversal on), not in the
exact ignore list, and matching no ignore pattern. Note the hidden-name
flag is the entry's own `markers.traverse_hidden`. -/
def notIgnoredName (e : IncludeEntry) (ignore_exact : List String)
    (ignore_regex_set : String → Bool) (name : String) : Bool :=
  (!startsWithDot name || e.markers.traverse_hidden)
    && !ignore_exact.contains name
    && !ignore_regex_set name

/-- `fs::get_not_ignored_dir_entries`: compiles the effective ignore
patterns, then keeps the entries passing `notIgnoredName`. The source
returns `(entry.path(), file_type)` pairs; here the name/node pairs are
kept and the caller joins `parent ++ [name]`. -/
def get_not_ignored_dir_entries (rm : RegexModel) (e : IncludeEntry)
    (dir_contents : List (String × FSNode)) (config : Config) :
    Except Unit (List (String × FSNode)) :=
  match rm.setNew (effIgnorePat e config) with
  | none => Except.error ()
  | some ignore_regex_set =>
      Except.ok (dir_contents.filter
        (fun c => notIgnoredName e (effIgnoreExact e config) ignore_regex_set c.1))

/-- The marker scan over a directory's direct children
(fs.rs lines 118-126): some entry name is in the exact marker list or
matches the compiled marker pattern set. -/
def markerHit (markers_exact : List String) (markers_regex_set : String → Bool)
    (dir_contents : List (String × FSNode)) : Bool :=
  dir_contents.any (fun c => markers_exact.contains c.1 || markers_regex_set c.1)

/-- `HashMap::insert` with unit values, viewed on the key set:
a present key is left in place, an absent key is appended. -/
def insertKey (output : List (List String)) (k : List String) : List (List String) :=
  if k ∈ output then output else output ++ [k]

lemma sizeOf_filter_le {α : Type} [SizeOf α] (p : α → Bool) (l : List α) :
    sizeOf (l.filter p) ≤ sizeOf l := by
  induction l with
  | nil => simp [List.filter]
  | cons a l ih =>
      simp only [List.filter]
      cases p a <;> simp <;> omega

lemma get_not_ignored_sizeOf {rm : RegexModel} {e : IncludeEntry}
    {dc entries : List (String × FSNode)} {config : Config}
    (h : get_not_ignored_dir_entries rm e dc config = Except.ok entries) :
    sizeOf entries ≤ sizeOf dc := by
  unfold get_not_ignored_dir_entries at h
  cases hs : rm.setNew (effIgnorePat e config) with
  | none => rw [hs] at h; cases h
  | some f =>
      rw [hs] at h
      cases h
      exact sizeOf_filter_le _ _

lemma readDir_some {node : FSNode} {dc : List (String × FSNode)}
    (h : readDir node = some dc) : node = FSNode.dir true dc := by
  cases node with
  | dir b entries =>
      cases b
      · simp [readDir] at h
      · simp [readDir] at h
        simp [h]
  | file => simp [readDir] at h
  | other => simp [readDir] at h

mutual

/-- `fs::get_included_paths_list`: reads the directory, compiles the
effective marker patterns, then dispatches on the mode. Returns the
`path_yields` flag and the updated output. The body of
`get_not_ignored_dir_entries` is inlined at its two call sites (the
lemma `get_not_ignored_eq` records that the inlined form is exactly
that function); an unreadable node (`readDir node = none`) is the
wildcard branch. -/
def get_included_paths_list (rm : RegexModel) (path : List String) (node : FSNode)
    (depth : Nat) (output : List (List String)) (e : IncludeEntry) (config : Config) :
    Except Unit (Bool × List (List String)) :=
  match node with
  | FSNode.dir true dir_contents =>
    (match rm.setNew (effMarkersPat e config) with
    | none => Except.error ()
    | some markers_regex_set =>
      match e.mode with
      | Mode.Dir =>
        -- scan current dir for markers (fs.rs lines 118-136)
        let path_yields := markerHit (effMarkersExact e config) markers_regex_set dir_contents
        if path_yields && e.yield_on_marker then
          Except.ok (true, insertKey output path)
        else if e.depth ≤ depth then
          Except.ok (path_yields, if path_yields then insertKey output path else output)
        else
          -- inlined get_not_ignored_dir_entries (fs.rs lines 146-155)
          match rm.setNew (effIgnorePat e config) with
          | none => Except.error ()
          | some ignore_regex_set =>
            match walk_children rm path
                ((dir_contents.filter
                  (fun c => notIgnoredName e (effIgnoreExact e config) ignore_regex_set c.1)).filter
                  (fun c => isDirNode c.2))
                depth path_yields output e config with
            | Except.error er => Except.error er
            | Except.ok (py, out) =>
                Except.ok (py, if py && e.include_intermediate_paths then insertKey out path else out)
      | Mode.File =>
        -- inlined get_not_ignored_dir_entries (fs.rs lines 176-190)
        match rm.setNew (effIgnorePat e config) with
        | none => Except.error ()
        | some ignore_regex_set =>
          let entries := dir_contents.filter
            (fun c => notIgnoredName e (effIgnoreExact e config) ignore_regex_set c.1)
          -- add all unignored files, collect directories (fs.rs lines 178-190)
          let files := entries.filter (fun c => isFileNode c.2)
          let path_yields := !files.isEmpty
          let output1 := files.foldl (fun out c => insertKey out (path ++ [c.1])) output
          if e.depth ≤ depth then
            Except.ok (path_yields, output1)
          else
            match walk_children rm path (entries.filter (fun c => isDirNode c.2))
                depth path_yields output1 e config with
            | Except.error er => Except.error er
            | Except.ok (py, out) =>
                Except.ok (py, if py && e.include_intermediate_paths then insertKey out path else out))
  | _ => Except.ok (false, output)
  termination_by sizeOf node
  decreasing_by
    all_goals
      refine lt_of_le_of_lt (le_trans (sizeOf_filter_le _ _) (sizeOf_filter_le _ _)) ?_
      simp only [FSNode.dir.sizeOf_spec]
      omega

/-- The per-child recursion loop of `get_included_paths_list`
(fs.rs lines 157-163 and 197-203): recurse into each surviving child
at `depth + 1`, or-ing the yields flags and threading the output. -/
def walk_children (rm : RegexModel) (parent : List String)
    (children : List (String × FSNode)) (depth : Nat) (py : Bool)
    (output : List (List String)) (e : IncludeEntry) (config : Config) :
    Except Unit (Bool × List (List String)) :=
  match children with
  | [] => Except.ok (py, output)
  | (name, child) :: rest =>
    match get_included_paths_list rm (parent ++ [name]) child (depth + 1) output e config with
    | Except.error er => Except.error er
    | Except.ok (cy, out) => walk_children rm parent rest depth (py || cy) out e config
  termination_by sizeOf children
  decreasing_by
    · simp only [List.cons.sizeOf_spec, Prod.mk.sizeOf_spec]
      omega
    · simp only [List.cons.sizeOf_spec]
      omega

end

/-! ### Basic facts about the output collection -/

lemma mem_insertKey_self (output : List (List String)) (k : List String) :
    k ∈ insertKey output k := by
  unfold insertKey
  by_cases h : k ∈ output <;> simp [h]

lemma mem_insertKey_of_mem {output : List (List String)} {a : List String}
    (k : List String) (h : a ∈ output) : a ∈ insertKey output k := by
  unfold insertKey
  by_cases hk : k ∈ output <;> simp [hk, h]

lemma mem_insertKey {output : List (List String)} {a k : List String}
    (h : a ∈ insertKey output k) : a ∈ output ∨ a = k := by
  unfold insertKey at h
  by_cases hk : k ∈ output
  · simp [hk] at h; exact Or.inl h
  · simp [hk] at h; exact h

lemma insertKey_nodup {output : List (List String)} (k : List String)
    (h : output.Nodup) : (insertKey output k).Nodup := by
  unfold insertKey
  by_cases hk : k ∈ output
  · simp [hk, h]
  · simp only [hk, if_false]
    rw [List.nodup_append_comm]
    simpa [List.nodup_cons] using ⟨hk, h⟩

/-! ### Characterizations of the child filter -/

lemma get_not_ignored_eq {rm : RegexModel} {e : IncludeEntry} {config : Config}
    {f : String → Bool} (dc : List (String × FSNode))
    (hs : rm.setNew (effIgnorePat e config) = some f) :
    get_not_ignored_dir_entries rm e dc config =
      Except.ok (dc.filter (fun c => notIgnoredName e (effIgnoreExact e config) f c.1)) := by
  unfold get_not_ignored_dir_entries
  rw [hs]

lemma get_not_ignored_err {rm : RegexModel} {e : IncludeEntry} {config : Config}
    (dc : List (String × FSNode))
    (hs : rm.setNew (effIgnorePat e config) = none) :
    get_not_ignored_dir_entries rm e dc config = Except.error () := by
  unfold get_not_ignored_dir_entries
  rw [hs]

lemma get_not_ignored_mem {rm : RegexModel} {e : IncludeEntry} {config : Config}
    {dc entries : List (String × FSNode)}
    (h : get_not_ignored_dir_entries rm e dc config = Except.ok entries) :
    ∀ c ∈ entries, c ∈ dc := by
  unfold get_not_ignored_dir_entries at h
  cases hs : rm.setNew (effIgnorePat e config) with
  | none => rw [hs] at h; cases h
  | some f =>
      rw [hs] at h
      cases h
      intro c hc
      exact List.mem_of_mem_filter hc

lemma get_not_ignored_passes {rm : RegexModel} {e : IncludeEntry} {config : Config}
    {dc entries : List (String × FSNode)}
    (h : get_not_ignored_dir_entries rm e dc config = Except.ok entries) :
    ∃ f, rm.setNew (effIgnorePat e config) = some f ∧
      ∀ c ∈ entries, notIgnoredName e (effIgnoreExact e config) f c.1 = true := by
  unfold get_not_ignored_dir_entries at h
  cases hs : rm.setNew (effIgnorePat e config) with
  | none => rw [hs] at h; cases h
  | some f =>
      rw [hs] at h
      cases h
      refine ⟨f, rfl, ?_⟩
      intro c hc
      exact (List.mem_filter.mp hc).2

/-! ### One-step unfolding of the classifier -/

lemma classify_unread {rm : RegexModel} {node : FSNode}
    (path : List String) (depth : Nat) (output : List (List String))
    (e : IncludeEntry) (config : Config) (h : readDir node = none) :
    get_included_paths_list rm path node depth output e config
      = Except.ok (false, output) := by
  cases node with
  | dir b dc =>
      cases b
      · unfold get_included_paths_list; rfl
      · simp [readDir] at h
  | file => unfold get_included_paths_list; rfl
  | other => unfold get_included_paths_list; rfl

lemma classify_markers_err {rm : RegexModel} {node : FSNode}
    {dc : List (String × FSNode)}
    (path : List String) (depth : Nat) (output : List (List String))
    (e : IncludeEntry) (config : Config)
    (hr : readDir node = some dc)
    (hm : rm.setNew (effMarkersPat e config) = none) :
    get_included_paths_list rm path node depth output e config = Except.error () := by
  have hn := readDir_some hr
  subst hn
  unfold get_included_paths_list
  dsimp only
  rw [hm]

lemma classify_dir_eq {rm : RegexModel} {node : FSNode}
    {dc : List (String × FSNode)} {f : String → Bool}
    (path : List String) (depth : Nat) (output : List (List String))
    (e : IncludeEntry) (config : Config)
    (hr : readDir node = some dc)
    (hm : rm.setNew (effMarkersPat e config) = some f)
    (hmode : e.mode = Mode.Dir) :
    get_included_paths_list rm path node depth output e config =
      (if markerHit (effMarkersExact e config) f dc && e.yield_on_marker then
        Except.ok (true, insertKey output path)
      else if e.depth ≤ depth then
        Except.ok (markerHit (effMarkersExact e config) f dc,
          if markerHit (effMarkersExact e config) f dc then insertKey output path else output)
      else
        match get_not_ignored_dir_entries rm e dc config with
        | Except.error er => Except.error er
        | Except.ok entries =>
          match walk_children rm path (entries.filter (fun c => isDirNode c.2))
              depth (markerHit (effMarkersExact e config) f dc) output e config with
          | Except.error er => Except.error er
          | Except.ok (py, out) =>
              Except.ok (py,
                if py && e.include_intermediate_paths then insertKey out path else out)) := by
  have hn := readDir_some hr
  subst hn
  conv_lhs => unfold get_included_paths_list
  dsimp only
  rw [hm, hmode]
  dsimp only
  cases hs : rm.setNew (effIgnorePat e config) with
  | none => rw [get_not_ignored_err dc hs]
  | some g => rw [get_not_ignored_eq dc hs]

lemma classify_file_eq {rm : RegexModel} {node : FSNode}
    {dc : List (String × FSNode)} {f : String → Bool}
    (path : List String) (depth : Nat) (output : List (List String))
    (e : IncludeEntry) (config : Config)
    (hr : readDir node = some dc)
    (hm : rm.setNew (effMarkersPat e config) = some f)
    (hmode : e.mode = Mode.File) :
    get_included_paths_list rm path node depth output e config =
      (match get_not_ignored_dir_entries rm e dc config with
      | Except.error er => Except.error er
      | Except.ok entries =>
        if e.depth ≤ depth then
          Except.ok (!(entries.filter (fun c => isFileNode c.2)).isEmpty,
            (entries.filter (fun c => isFileNode c.2)).foldl
              (fun out c => insertKey out (path ++ [c.1])) output)
        else
          match walk_children rm path (entries.filter (fun c => isDirNode c.2))
              depth (!(entries.filter (fun c => isFileNode c.2)).isEmpty)
              ((entries.filter (fun c => isFileNode c.2)).foldl
                (fun out c => insertKey out (path ++ [c.1])) output) e config with
          | Except.error er => Except.error er
          | Except.ok (py, out) =>
              Except.ok (py,
                if py && e.include_intermediate_paths then insertKey out path else out)) := by
  have hn := readDir_some hr
  subst hn
  conv_lhs => unfold get_included_paths_list
  dsimp only
  rw [hm, hmode]
  dsimp only
  cases hs : rm.setNew (effIgnorePat e config) with
  | none => rw [get_not_ignored_err dc hs]
  | some g => rw [get_not_ignored_eq dc hs]

lemma walk_nil {rm : RegexModel} (parent : List String) (depth : Nat) (py : Bool)
    (output : List (List String)) (e : IncludeEntry) (config : Config) :
    walk_children rm parent [] depth py output e config = Except.ok (py, output) := by
  unfold walk_children
  rfl

lemma walk_cons {rm : RegexModel} (parent : List String) (name : String)
    (child : FSNode) (rest : List (String × FSNode)) (depth : Nat) (py : Bool)
    (output : List (List String)) (e : IncludeEntry) (config : Config) :
    walk_children rm parent ((name, child) :: rest) depth py output e config =
      (match get_included_paths_list rm (parent ++ [name]) child (depth + 1) output e config with
      | Except.error er => Except.error er
      | Except.ok (cy, out) => walk_children rm parent rest depth (py || cy) out e config) := by
  conv_lhs => unfold walk_children

/-! ### The caller loop of `selectors::pick_project` -/

/-- The inner loop of `selectors::pick_project` over the paths of one
include entry: the root path itself is first recorded when
`include_intermediate_paths` is set (spec §4.2, caller responsibility),
then the classifier runs at depth 0 into the same output collection. -/
def run_roots (rm : RegexModel) (config : Config) (e : IncludeEntry)
    (roots : List (List String × FSNode)) (output : List (List String)) :
    Except Unit (List (List String)) :=
  match roots with
  | [] => Except.ok output
  | (p, n) :: rest =>
    let output1 := if e.include_intermediate_paths then insertKey output p else output
    match get_included_paths_list rm p n 0 output1 e config with
    | Except.error er => Except.error er
    | Except.ok (_, output2) => run_roots rm config e rest output2

/-- The outer loop of `selectors::pick_project` over the include
entries, all writing into one shared output collection. -/
def pick_project_list (rm : RegexModel) (config : Config)
    (includes : List (IncludeEntry × List (List String × FSNode)))
    (output : List (List String)) : Except Unit (List (List String)) :=
  match includes with
  | [] => Except.ok output
  | (e, roots) :: rest =>
    match run_roots rm config e roots output with
    | Except.error er => Except.error er
    | Except.ok out => pick_project_list rm config rest out

/-! ### Auxiliary definitions for the statements -/

/-- The depth budget of recorded paths below a scan root, per mode:
in `Dir` mode a call only ever records its own path, in `File` mode it
also records file entries one segment deeper. -/
def modeBound (e : IncludeEntry) : Nat :=
  match e.mode with
  | Mode.Dir => e.depth
  | Mode.File => e.depth + 1

/-- A name passes the child filter of `get_not_ignored_dir_entries`:
the effective ignore patterns compile and the name is neither hidden
(unless hidden traversal is on) nor ignored. -/
def survivesFilter (rm : RegexModel) (e : IncludeEntry) (config : Config)
    (name : String) : Prop :=
  ∃ f, rm.setNew (effIgnorePat e config) = some f ∧
    notIgnoredName e (effIgnoreExact e config) f name = true

/-! ### More support lemmas -/

lemma FSNode.sizeOf_pos (node : FSNode) : 0 < sizeOf node := by
  cases node <;> simp

lemma mem_dir_sizeOf_lt {dc : List (String × FSNode)} {c : String × FSNode}
    (b : Bool) (h : c ∈ dc) : sizeOf c.2 < sizeOf (FSNode.dir b dc) := by
  have h1 := List.sizeOf_lt_of_mem h
  obtain ⟨nm, nd⟩ := c
  simp only [FSNode.dir.sizeOf_spec, Prod.mk.sizeOf_spec] at h1 ⊢
  omega

lemma depth_le_modeBound (e : IncludeEntry) : e.depth ≤ modeBound e := by
  unfold modeBound
  cases hm : e.mode <;> simp

lemma foldl_insertKey_mem {l : List (String × FSNode)} {output : List (List String)}
    {p q : List String}
    (h : q ∈ l.foldl (fun out c => insertKey out (p ++ [c.1])) output) :
    q ∈ output ∨ ∃ c ∈ l, q = p ++ [c.1] := by
  induction l generalizing output with
  | nil => exact Or.inl h
  | cons a l ih =>
      simp only [List.foldl_cons] at h
      rcases ih h with h2 | h2
      · rcases mem_insertKey h2 with h3 | h3
        · exact Or.inl h3
        · exact Or.inr ⟨a, List.mem_cons_self a l, h3⟩
      · obtain ⟨c, hc, hq⟩ := h2
        exact Or.inr ⟨c, List.mem_cons_of_mem a hc, hq⟩

lemma foldl_insertKey_nodup {l : List (String × FSNode)} {output : List (List String)}
    {p : List String} (h : output.Nodup) :
    (l.foldl (fun out c => insertKey out (p ++ [c.1])) output).Nodup := by
  induction l generalizing output with
  | nil => exact h
  | cons a l ih =>
      simp only [List.foldl_cons]
      exact ih (insertKey_nodup _ h)

lemma walk_flag_mono {rm : RegexModel} {e : IncludeEntry} {config : Config} :
    ∀ (children : List (String × FSNode)) (parent : List String) (depth : Nat)
      (output : List (List String)) (r : Bool × List (List String)),
      walk_children rm parent children depth true output e config = Except.ok r →
      r.1 = true := by
  intro children
  induction children with
  | nil =>
      intro parent depth output r h
      rw [walk_nil] at h
      injection h with h2
      rw [← h2]
  | cons a rest ih =>
      intro parent depth output r h
      obtain ⟨name, child⟩ := a
      rw [walk_cons] at h
      cases hc : get_included_paths_list rm (parent ++ [name]) child (depth + 1) output e config with
      | error er => rw [hc] at h; simp at h
      | ok cr =>
          obtain ⟨cy, out1⟩ := cr
          rw [hc] at h
          simp only [Bool.true_or] at h
          exact ih parent depth out1 r h

lemma walk_append {rm : RegexModel} {e : IncludeEntry} {config : Config} :
    ∀ (pre post : List (String × FSNode)) (parent : List String) (depth : Nat)
      (py : Bool) (output : List (List String)),
      walk_children rm parent (pre ++ post) depth py output e config =
        (match walk_children rm parent pre depth py output e config with
        | Except.error er => Except.error er
        | Except.ok (py1, out1) => walk_children rm parent post depth py1 out1 e config) := by
  intro pre
  induction pre with
  | nil =>
      intro post parent depth py output
      rw [List.nil_append, walk_nil]
  | cons a pre ih =>
      intro post parent depth py output
      obtain ⟨name, child⟩ := a
      rw [List.cons_append, walk_cons, walk_cons]
      cases hc : get_included_paths_list rm (parent ++ [name]) child (depth + 1) output e config with
      | error er => rfl
      | ok cr =>
          obtain ⟨cy, out1⟩ := cr
          exact ih post parent depth (py || cy) out1

/-! ### Provenance of recorded paths

Every path newly recorded by a call at `path`/`depth` is `path ++ s`
for a suffix `s` of names that all pass the child filter, with
`depth + s.length` bounded by the mode-dependent depth budget. -/

lemma walk_provenance {rm : RegexModel} {e : IncludeEntry} {config : Config} :
    ∀ (children : List (String × FSNode)),
      (∀ c ∈ children, survivesFilter rm e config c.1) →
      (∀ c ∈ children, ∀ path depth output b out, depth ≤ e.depth →
          get_included_paths_list rm path c.2 depth output e config = Except.ok (b, out) →
          ∀ q ∈ out, q ∈ output ∨ ∃ s, q = path ++ s ∧ depth + s.length ≤ modeBound e ∧
            ∀ nm ∈ s, survivesFilter rm e config nm) →
      ∀ parent depth py output r, depth + 1 ≤ e.depth →
        walk_children rm parent children depth py output e config = Except.ok r →
        ∀ q ∈ r.2, q ∈ output ∨ ∃ s, q = parent ++ s ∧ depth + s.length ≤ modeBound e ∧
          ∀ nm ∈ s, survivesFilter rm e config nm := by
  intro children
  induction children with
  | nil =>
      intro _ _ parent depth py output r _ h q hq
      rw [walk_nil] at h
      injection h with h2
      rw [← h2] at hq
      exact Or.inl hq
  | cons a rest ih =>
      intro hsurv hrec parent depth py output r hdep h q hq
      obtain ⟨name, child⟩ := a
      rw [walk_cons] at h
      cases hc : get_included_paths_list rm (parent ++ [name]) child (depth + 1) output e config with
      | error er => rw [hc] at h; simp at h
      | ok cr =>
          obtain ⟨cy, out1⟩ := cr
          rw [hc] at h
          have hrest := ih (fun c hc2 => hsurv c (List.mem_cons_of_mem _ hc2))
            (fun c hc2 => hrec c (List.mem_cons_of_mem _ hc2))
            parent depth (py || cy) out1 r hdep h q hq
          rcases hrest with h1 | h1
          · -- q came from the head child's call
            have hhead := hrec (name, child) (List.mem_cons_self _ _)
              (parent ++ [name]) (depth + 1) output cy out1 hdep hc q h1
            rcases hhead with h2 | h2
            · exact Or.inl h2
            · obtain ⟨s2, hq2, hl2, hs2⟩ := h2
              refine Or.inr ⟨name :: s2, ?_, ?_, ?_⟩
              · rw [hq2]; simp
              · simp only [List.length_cons]; omega
              · intro nm hnm
                rcases List.mem_cons.mp hnm with h3 | h3
                · rw [h3]; exact hsurv (name, child) (List.mem_cons_self _ _)
                · exact hs2 nm h3
          · exact Or.inr h1

lemma classify_provenance_aux {rm : RegexModel} {e : IncludeEntry} {config : Config} :
    ∀ (n : Nat) (node : FSNode), sizeOf node ≤ n →
      ∀ path depth output b out, depth ≤ e.depth →
        get_included_paths_list rm path node depth output e config = Except.ok (b, out) →
        ∀ q ∈ out, q ∈ output ∨ ∃ s, q = path ++ s ∧ depth + s.length ≤ modeBound e ∧
          ∀ nm ∈ s, survivesFilter rm e config nm := by
  intro n
  induction n with
  | zero =>
      intro node hn
      have := FSNode.sizeOf_pos node
      omega
  | succ n ih =>
      intro node hn path depth output b out hdep h q hq
      cases hrd : readDir node with
      | none =>
          rw [classify_unread _ _ _ _ _ hrd] at h
          injection h with h2
          injection h2 with h3 h4
          rw [← h4] at hq
          exact Or.inl hq
      | some dc =>
          have hnode := readDir_some hrd
          have hsz : ∀ c ∈ dc, sizeOf c.2 ≤ n := by
            intro c hc
            have := mem_dir_sizeOf_lt true hc
            rw [hnode] at hn
            omega
          cases hm : rm.setNew (effMarkersPat e config) with
          | none => rw [classify_markers_err _ _ _ _ _ hrd hm] at h; simp at h
          | some f =>
          cases hmode : e.mode with
          | Dir =>
              rw [classify_dir_eq _ _ _ _ _ hrd hm hmode] at h
              by_cases h1 : (markerHit (effMarkersExact e config) f dc && e.yield_on_marker) = true
              · rw [if_pos h1] at h
                injection h with h2
                injection h2 with h3 h4
                rw [← h4] at hq
                rcases mem_insertKey hq with h5 | h5
                · exact Or.inl h5
                · refine Or.inr ⟨[], by simp [h5], ?_, by simp⟩
                  have := depth_le_modeBound e
                  simp only [List.length_nil]
                  omega
              · rw [if_neg h1] at h
                by_cases h2 : e.depth ≤ depth
                · rw [if_pos h2] at h
                  injection h with h3
                  injection h3 with h4 h5
                  cases hhit : markerHit (effMarkersExact e config) f dc with
                  | false =>
                      rw [hhit] at h5
                      simp only [Bool.false_eq_true, if_false] at h5
                      rw [← h5] at hq
                      exact Or.inl hq
                  | true =>
                      rw [hhit] at h5
                      simp only [if_true] at h5
                      rw [← h5] at hq
                      rcases mem_insertKey hq with h6 | h6
                      · exact Or.inl h6
                      · refine Or.inr ⟨[], by simp [h6], ?_, by simp⟩
                        have := depth_le_modeBound e
                        simp only [List.length_nil]
                        omega
                · rw [if_neg h2] at h
                  cases hge : get_not_ignored_dir_entries rm e dc config with
                  | error er => rw [hge] at h; simp at h
                  | ok entries =>
                      rw [hge] at h
                      dsimp only at h
                      cases hw : walk_children rm path (entries.filter (fun c => isDirNode c.2))
                          depth (markerHit (effMarkersExact e config) f dc) output e config with
                      | error er => rw [hw] at h; simp at h
                      | ok wr =>
                          obtain ⟨py, wout⟩ := wr
                          rw [hw] at h
                          dsimp only at h
                          injection h with h3
                          injection h3 with h4 h5
                          obtain ⟨g, hg, hpass⟩ := get_not_ignored_passes hge
                          have hmem := get_not_ignored_mem hge
                          have hq2 : q ∈ wout ∨ q = path := by
                            by_cases h6 : (py && e.include_intermediate_paths) = true
                            · rw [if_pos h6] at h5
                              rw [← h5] at hq
                              rcases mem_insertKey hq with h7 | h7
                              · exact Or.inl h7
                              · exact Or.inr h7
                            · rw [if_neg h6] at h5
                              rw [← h5] at hq
                              exact Or.inl hq
                          rcases hq2 with h6 | h6
                          · refine walk_provenance (entries.filter (fun c => isDirNode c.2))
                              ?_ ?_ path depth
                              (markerHit (effMarkersExact e config) f dc) output (py, wout)
                              (by omega) hw q h6
                            · intro c hc
                              exact ⟨g, hg, hpass c (List.mem_of_mem_filter hc)⟩
                            · intro c hc path2 depth2 output2 b2 out2 hd2 hcl
                              exact ih c.2
                                (hsz c (hmem c (List.mem_of_mem_filter hc)))
                                path2 depth2 output2 b2 out2 hd2 hcl
                          · refine Or.inr ⟨[], by simp [h6], ?_, by simp⟩
                            have := depth_le_modeBound e
                            simp only [List.length_nil]
                            omega
          | File =>
              rw [classify_file_eq _ _ _ _ _ hrd hm hmode] at h
              cases hge : get_not_ignored_dir_entries rm e dc config with
              | error er => rw [hge] at h; simp at h
              | ok entries =>
              rw [hge] at h
              dsimp only at h
              obtain ⟨g, hg, hpass⟩ := get_not_ignored_passes hge
              have hmem := get_not_ignored_mem hge
              have hmbe : modeBound e = e.depth + 1 := by
                unfold modeBound; rw [hmode]
              have hout1 : ∀ q2, q2 ∈ (entries.filter (fun c => isFileNode c.2)).foldl
                  (fun out c => insertKey out (path ++ [c.1])) output →
                  q2 ∈ output ∨ ∃ s, q2 = path ++ s ∧ depth + s.length ≤ modeBound e ∧
                    ∀ nm ∈ s, survivesFilter rm e config nm := by
                intro q2 hq2
                rcases foldl_insertKey_mem hq2 with h3 | h3
                · exact Or.inl h3
                · obtain ⟨c, hc, hq3⟩ := h3
                  refine Or.inr ⟨[c.1], hq3, ?_, ?_⟩
                  · simp only [List.length_cons, List.length_nil]
                    omega
                  · intro nm hnm
                    rcases List.mem_cons.mp hnm with h4 | h4
                    · rw [h4]
                      exact ⟨g, hg, hpass c (List.mem_of_mem_filter hc)⟩
                    · cases h4
              by_cases h2 : e.depth ≤ depth
              · rw [if_pos h2] at h
                injection h with h3
                injection h3 with h4 h5
                rw [← h5] at hq
                exact hout1 q hq
              · rw [if_neg h2] at h
                cases hw : walk_children rm path (entries.filter (fun c => isDirNode c.2))
                    depth (!(entries.filter (fun c => isFileNode c.2)).isEmpty)
                    ((entries.filter (fun c => isFileNode c.2)).foldl
                      (fun out c => insertKey out (path ++ [c.1])) output) e config with
                | error er => rw [hw] at h; simp at h
                | ok wr =>
                    obtain ⟨py, wout⟩ := wr
                    rw [hw] at h
                    dsimp only at h
                    injection h with h3
                    injection h3 with h4 h5
                    have hq2 : q ∈ wout ∨ q = path := by
                      by_cases h6 : (py && e.include_intermediate_paths) = true
                      · rw [if_pos h6] at h5
                        rw [← h5] at hq
                        rcases mem_insertKey hq with h7 | h7
                        · exact Or.inl h7
                        · exact Or.inr h7
                      · rw [if_neg h6] at h5
                        rw [← h5] at hq
                        exact Or.inl hq
                    rcases hq2 with h6 | h6
                    · have hwp := walk_provenance (entries.filter (fun c => isDirNode c.2))
                        (fun c hc => ⟨g, hg, hpass c (List.mem_of_mem_filter hc)⟩)
                        (fun c hc path2 depth2 output2 b2 out2 hd2 hcl =>
                          ih c.2 (hsz c (hmem c (List.mem_of_mem_filter hc)))
                            path2 depth2 output2 b2 out2 hd2 hcl)
                        path depth (!(entries.filter (fun c => isFileNode c.2)).isEmpty)
                        ((entries.filter (fun c => isFileNode c.2)).foldl
                          (fun out c => insertKey out (path ++ [c.1])) output) (py, wout)
                        (by omega) hw q h6
                      rcases hwp with h7 | h7
                      · exact hout1 q h7
                      · exact Or.inr h7
                    · refine Or.inr ⟨[], by simp [h6], ?_, by simp⟩
                      have := depth_le_modeBound e
                      simp only [List.length_nil]
                      omega

/-- Entry point of the provenance lemma at the node's own size. -/
lemma classify_provenance {rm : RegexModel} {e : IncludeEntry} {config : Config}
    {path : List String} {node : FSNode} {depth : Nat}
    {output out : List (List String)} {b : Bool}
    (hdep : depth ≤ e.depth)
    (h : get_included_paths_list rm path node depth output e config = Except.ok (b, out)) :
    ∀ q ∈ out, q ∈ output ∨ ∃ s, q = path ++ s ∧ depth + s.length ≤ modeBound e ∧
      ∀ nm ∈ s, survivesFilter rm e config nm :=
  classify_provenance_aux (sizeOf node) node le_rfl path depth output b out hdep h

/-! ### The output key set stays duplicate-free -/

lemma walk_nodup {rm : RegexModel} {e : IncludeEntry} {config : Config} :
    ∀ (children : List (String × FSNode)),
      (∀ c ∈ children, ∀ path depth output b out, output.Nodup →
          get_included_paths_list rm path c.2 depth output e config = Except.ok (b, out) →
          out.Nodup) →
      ∀ parent depth py output r, output.Nodup →
        walk_children rm parent children depth py output e config = Except.ok r →
        r.2.Nodup := by
  intro children
  induction children with
  | nil =>
      intro _ parent depth py output r hnd h
      rw [walk_nil] at h
      injection h with h2
      rw [← h2]
      exact hnd
  | cons a rest ih =>
      intro hrec parent depth py output r hnd h
      obtain ⟨name, child⟩ := a
      rw [walk_cons] at h
      cases hc : get_included_paths_list rm (parent ++ [name]) child (depth + 1) output e config with
      | error er => rw [hc] at h; simp at h
      | ok cr =>
          obtain ⟨cy, out1⟩ := cr
          rw [hc] at h
          have hnd1 := hrec (name, child) (List.mem_cons_self _ _)
            (parent ++ [name]) (depth + 1) output cy out1 hnd hc
          exact ih (fun c hc2 => hrec c (List.mem_cons_of_mem _ hc2))
            parent depth (py || cy) out1 r hnd1 h

lemma classify_nodup_aux {rm : RegexModel} {e : IncludeEntry} {config : Config} :
    ∀ (n : Nat) (node : FSNode), sizeOf node ≤ n →
      ∀ path depth output b out, output.Nodup →
        get_included_paths_list rm path node depth output e config = Except.ok (b, out) →
        out.Nodup := by
  intro n
  induction n with
  | zero =>
      intro node hn
      have := FSNode.sizeOf_pos node
      omega
  | succ n ih =>
      intro node hn path depth output b out hnd h
      cases hrd : readDir node with
      | none =>
          rw [classify_unread _ _ _ _ _ hrd] at h
          injection h with h2
          injection h2 with h3 h4
          rw [← h4]
          exact hnd
      | some dc =>
          have hnode := readDir_some hrd
          have hsz : ∀ c ∈ dc, sizeOf c.2 ≤ n := by
            intro c hc
            have := mem_dir_sizeOf_lt true hc
            rw [hnode] at hn
            omega
          cases hm : rm.setNew (effMarkersPat e config) with
          | none => rw [classify_markers_err _ _ _ _ _ hrd hm] at h; simp at h
          | some f =>
          cases hmode : e.mode with
          | Dir =>
              rw [classify_dir_eq _ _ _ _ _ hrd hm hmode] at h
              by_cases h1 : (markerHit (effMarkersExact e config) f dc && e.yield_on_marker) = true
              · rw [if_pos h1] at h
                injection h with h2
                injection h2 with h3 h4
                rw [← h4]
                exact insertKey_nodup _ hnd
              · rw [if_neg h1] at h
                by_cases h2 : e.depth ≤ depth
                · rw [if_pos h2] at h
                  injection h with h3
                  injection h3 with h4 h5
                  rw [← h5]
                  cases markerHit (effMarkersExact e config) f dc
                  · simpa using hnd
                  · simpa using insertKey_nodup _ hnd
                · rw [if_neg h2] at h
                  cases hge : get_not_ignored_dir_entries rm e dc config with
                  | error er => rw [hge] at h; simp at h
                  | ok entries =>
                      rw [hge] at h
                      dsimp only at h
                      cases hw : walk_children rm path (entries.filter (fun c => isDirNode c.2))
                          depth (markerHit (effMarkersExact e config) f dc) output e config with
                      | error er => rw [hw] at h; simp at h
                      | ok wr =>
                          obtain ⟨py, wout⟩ := wr
                          rw [hw] at h
                          dsimp only at h
                          injection h with h3
                          injection h3 with h4 h5
                          have hmem := get_not_ignored_mem hge
                          have hwnd := walk_nodup (entries.filter (fun c => isDirNode c.2))
                            (fun c hc path2 depth2 output2 b2 out2 hnd2 hcl =>
                              ih c.2 (hsz c (hmem c (List.mem_of_mem_filter hc)))
                                path2 depth2 output2 b2 out2 hnd2 hcl)
                            path depth (markerHit (effMarkersExact e config) f dc)
                            output (py, wout) hnd hw
                          rw [← h5]
                          by_cases h6 : (py && e.include_intermediate_paths) = true
                          · rw [if_pos h6]
                            exact insertKey_nodup _ hwnd
                          · rw [if_neg h6]
                            exact hwnd
          | File =>
              rw [classify_file_eq _ _ _ _ _ hrd hm hmode] at h
              cases hge : get_not_ignored_dir_entries rm e dc config with
              | error er => rw [hge] at h; simp at h
              | ok entries =>
              rw [hge] at h
              dsimp only at h
              have hmem := get_not_ignored_mem hge
              have hnd1 : ((entries.filter (fun c => isFileNode c.2)).foldl
                  (fun out c => insertKey out (path ++ [c.1])) output).Nodup :=
                foldl_insertKey_nodup hnd
              by_cases h2 : e.depth ≤ depth
              · rw [if_pos h2] at h
                injection h with h3
                injection h3 with h4 h5
                rw [← h5]
                exact hnd1
              · rw [if_neg h2] at h
                cases hw : walk_children rm path (entries.filter (fun c => isDirNode c.2))
                    depth (!(entries.filter (fun c => isFileNode c.2)).isEmpty)
                    ((entries.filter (fun c => isFileNode c.2)).foldl
                      (fun out c => insertKey out (path ++ [c.1])) output) e config with
                | error er => rw [hw] at h; simp at h
                | ok wr =>
                    obtain ⟨py, wout⟩ := wr
                    rw [hw] at h
                    dsimp only at h
                    injection h with h3
                    injection h3 with h4 h5
                    have hwnd := walk_nodup (entries.filter (fun c => isDirNode c.2))
                      (fun c hc path2 depth2 output2 b2 out2 hnd2 hcl =>
                        ih c.2 (hsz c (hmem c (List.mem_of_mem_filter hc)))
                          path2 depth2 output2 b2 out2 hnd2 hcl)
                      path depth (!(entries.filter (fun c => isFileNode c.2)).isEmpty)
                      ((entries.filter (fun c => isFileNode c.2)).foldl
                        (fun out c => insertKey out (path ++ [c.1])) output) (py, wout) hnd1 hw
                    rw [← h5]
                    by_cases h6 : (py && e.include_intermediate_paths) = true
                    · rw [if_pos h6]
                      exact insertKey_nodup _ hwnd
                    · rw [if_neg h6]
                      exact hwnd

/-- Entry point of the no-duplicates lemma at the node's own size. -/
lemma classify_nodup {rm : RegexModel} {e : IncludeEntry} {config : Config}
    {path : List String} {node : FSNode} {depth : Nat}
    {output out : List (List String)} {b : Bool}
    (hnd : output.Nodup)
    (h : get_included_paths_list rm path node depth output e config = Except.ok (b, out)) :
    out.Nodup :=
  classify_nodup_aux (sizeOf node) node le_rfl path depth output b out hnd h

lemma run_roots_nodup {rm : RegexModel} {config : Config} {e : IncludeEntry} :
    ∀ (roots : List (List String × FSNode)) (output out : List (List String)),
      output.Nodup → run_roots rm config e roots output = Except.ok out → out.Nodup := by
  intro roots
  induction roots with
  | nil =>
      intro output out hnd h
      unfold run_roots at h
      injection h with h2
      rw [← h2]
      exact hnd
  | cons a rest ih =>
      intro output out hnd h
      obtain ⟨p, node⟩ := a
      unfold run_roots at h
      dsimp only at h
      have hnd1 : (if e.include_intermediate_paths then insertKey output p else output).Nodup := by
        by_cases hip : e.include_intermediate_paths = true
        · rw [if_pos hip]; exact insertKey_nodup _ hnd
        · rw [if_neg hip]; exact hnd
      cases hc : get_included_paths_list rm p node 0
          (if e.include_intermediate_paths then insertKey output p else output) e config with
      | error er => rw [hc] at h; simp at h
      | ok cr =>
          obtain ⟨b1, out1⟩ := cr
          rw [hc] at h
          dsimp only at h
          exact ih out1 out (classify_nodup hnd1 hc) h

lemma pick_project_nodup {rm : RegexModel} {config : Config} :
    ∀ (includes : List (IncludeEntry × List (List String × FSNode)))
      (output out : List (List String)),
      output.Nodup → pick_project_list rm config includes output = Except.ok out →
      out.Nodup := by
  intro includes
  induction includes with
  | nil =>
      intro output out hnd h
      unfold pick_project_list at h
      injection h with h2
      rw [← h2]
      exact hnd
  | cons a rest ih =>
      intro output out hnd h
      obtain ⟨e, roots⟩ := a
      unfold pick_project_list at h
      cases hr : run_roots rm config e roots output with
      | error er => rw [hr] at h; simp at h
      | ok out1 =>
          rw [hr] at h
          dsimp only at h
          exact ih out1 out (run_roots_nodup roots output out1 hnd hr) h

/-! ### Two branch lemmas shared by several claims -/

/-- The marker short-circuit branch (fs.rs lines 128-133). -/
lemma classify_marker_shortcut {rm : RegexModel} {node : FSNode}
    {dc : List (String × FSNode)} {f : String → Bool}
    (path : List String) (depth : Nat) (output : List (List String))
    (e : IncludeEntry) (config : Config)
    (hmode : e.mode = Mode.Dir) (hyom : e.yield_on_marker = true)
    (hrd : readDir node = some dc)
    (hm : rm.setNew (effMarkersPat e config) = some f)
    (hhit : markerHit (effMarkersExact e config) f dc = true) :
    get_included_paths_list rm path node depth output e config
      = Except.ok (true, insertKey output path) := by
  rw [classify_dir_eq path depth output e config hrd hm hmode, hhit, hyom]
  simp

/-- The depth-limit branch with no marker match (fs.rs lines 138-144). -/
lemma classify_dir_nohit_depth {rm : RegexModel} {node : FSNode}
    {dc : List (String × FSNode)} {f : String → Bool}
    (path : List String) (depth : Nat) (output : List (List String))
    (e : IncludeEntry) (config : Config)
    (hmode : e.mode = Mode.Dir)
    (hrd : readDir node = some dc)
    (hm : rm.setNew (effMarkersPat e config) = some f)
    (hhit : markerHit (effMarkersExact e config) f dc = false)
    (hdep : e.depth ≤ depth) :
    get_included_paths_list rm path node depth output e config
      = Except.ok (false, output) := by
  rw [classify_dir_eq path depth output e config hrd hm hmode, hhit]
  simp [hdep]

/-! ### Concrete scenario objects used by the witnesses

`rmDemo` models the `regex` crate on exactly the pattern sets used in
the concrete scenarios: the empty pattern set compiles and matches
nothing (`RegexSet::new([])` succeeds and matches nothing), and a set
containing the bare pattern `"*"` fails to compile (in regex syntax a
repetition operator needs an expression before it). -/

def rmDemo : RegexModel :=
  ⟨fun pats => if pats.contains "*" then none else some (fun _ => false)⟩

def cfgEmpty : Config :=
  { markers := ⟨[], [], true, true⟩, ignore := ⟨[], [], true⟩ }

def eDemo : IncludeEntry :=
  { mode := Mode.Dir, markers := ⟨[".git"], [], true, false⟩,
    ignore := ⟨[], [], false⟩, include_intermediate_paths := true,
    yield_on_marker := true, depth := 10 }

def treeDemo : FSNode :=
  FSNode.dir true [("x", FSNode.file),
    ("sub", FSNode.dir true [(".git", FSNode.dir true [])])]

def eFileCex : IncludeEntry :=
  { mode := Mode.File, markers := ⟨[], [], true, false⟩,
    ignore := ⟨[], [], false⟩, include_intermediate_paths := true,
    yield_on_marker := true, depth := 0 }

def eStar : IncludeEntry :=
  { mode := Mode.Dir, markers := ⟨["*"], [], true, false⟩,
    ignore := ⟨[], [], false⟩, include_intermediate_paths := true,
    yield_on_marker := true, depth := 0 }

def eBadIgnorePat : IncludeEntry :=
  { mode := Mode.Dir, markers := ⟨[".git"], [], true, false⟩,
    ignore := ⟨[], ["*"], false⟩, include_intermediate_paths := true,
    yield_on_marker := true, depth := 5 }

def eBadMarkerPat : IncludeEntry :=
  { mode := Mode.Dir, markers := ⟨[], ["*"], true, false⟩,
    ignore := ⟨[], [], false⟩, include_intermediate_paths := true,
    yield_on_marker := true, depth := 3 }

def eHidden : IncludeEntry :=
  { mode := Mode.Dir, markers := ⟨[], [], false, true⟩,
    ignore := ⟨[], [], true⟩, include_intermediate_paths := true,
    yield_on_marker := true, depth := 5 }

def cfgHidden : Config :=
  { markers := ⟨[], [], true, true⟩, ignore := ⟨[], [], true⟩ }

def eIgn : IncludeEntry :=
  { mode := Mode.Dir, markers := ⟨[".git"], [], true, false⟩,
    ignore := ⟨["node_modules"], [], false⟩, include_intermediate_paths := true,
    yield_on_marker := true, depth := 10 }

def eMarkedIgnored : IncludeEntry :=
  { mode := Mode.Dir, markers := ⟨[".git"], [], false, false⟩,
    ignore := ⟨[".git"], [], false⟩, include_intermediate_paths := true,
    yield_on_marker := false, depth := 3 }

/-! ### The claims -/

/-- C1: in DirectoryMarker mode with includeIntermediatePaths = true,
(a) a call whose yields flag comes back true has recorded its own path
in the output, and (b) whenever a recursive call on a child returns
true inside the child loop, the surrounding loop's yields flag comes
back true — so every ancestor of a qualifying descendant, up to and
including the scan root, records itself. -/
theorem C1_upward_propagation :
    ∀ (rm : RegexModel) (e : IncludeEntry) (config : Config),
      e.mode = Mode.Dir → e.include_intermediate_paths = true →
      ((∀ path node depth output out,
          get_included_paths_list rm path node depth output e config = Except.ok (true, out) →
          path ∈ out)
      ∧ (∀ (parent : List String) (pre : List (String × FSNode)) (name : String)
          (child : FSNode) (post : List (String × FSNode)) (depth : Nat) (py py1 : Bool)
          (output out1 out2 : List (List String)) (r : Bool × List (List String)),
          walk_children rm parent pre depth py output e config = Except.ok (py1, out1) →
          get_included_paths_list rm (parent ++ [name]) child (depth + 1) out1 e config
            = Except.ok (true, out2) →
          walk_children rm parent (pre ++ (name, child) :: post) depth py output e config
            = Except.ok r →
          r.1 = true)) := by
  intro rm e config hmode hiip
  constructor
  · intro path node depth output out h
    cases hrd : readDir node with
    | none =>
        rw [classify_unread path depth output e config hrd] at h
        injection h with h2
        injection h2 with h3 h4
        exact Bool.noConfusion h3
    | some dc =>
        cases hm : rm.setNew (effMarkersPat e config) with
        | none =>
            rw [classify_markers_err path depth output e config hrd hm] at h
            exact Except.noConfusion h
        | some f =>
            rw [classify_dir_eq path depth output e config hrd hm hmode] at h
            by_cases h1 : (markerHit (effMarkersExact e config) f dc && e.yield_on_marker) = true
            · rw [if_pos h1] at h
              injection h with h2
              injection h2 with h3 h4
              rw [← h4]
              exact mem_insertKey_self output path
            · rw [if_neg h1] at h
              by_cases h2 : e.depth ≤ depth
              · rw [if_pos h2] at h
                injection h with h3
                injection h3 with h4 h5
                rw [h4] at h5
                simp only [if_true] at h5
                rw [← h5]
                exact mem_insertKey_self output path
              · rw [if_neg h2] at h
                cases hge : get_not_ignored_dir_entries rm e dc config with
                | error er => rw [hge] at h; simp at h
                | ok entries =>
                    rw [hge] at h
                    dsimp only at h
                    cases hw : walk_children rm path (entries.filter (fun c => isDirNode c.2))
                        depth (markerHit (effMarkersExact e config) f dc) output e config with
                    | error er => rw [hw] at h; simp at h
                    | ok wr =>
                        obtain ⟨py, wout⟩ := wr
                        rw [hw] at h
                        dsimp only at h
                        injection h with h3
                        injection h3 with h4 h5
                        rw [h4, hiip] at h5
                        simp only [Bool.and_self, if_true] at h5
                        rw [← h5]
                        exact mem_insertKey_self wout path
  · intro parent pre name child post depth py py1 output out1 out2 r hpre hchild h
    rw [walk_append, hpre] at h
    dsimp only at h
    rw [walk_cons, hchild] at h
    dsimp only at h
    rw [Bool.or_true] at h
    exact walk_flag_mono post parent depth out2 r h

/-- Witness for C1 at a concrete scan: the root of `treeDemo` yields
(its grandchild holds a `.git` marker) and is recorded in the output. -/
theorem C1_upward_propagation_w :
    eDemo.mode = Mode.Dir ∧ eDemo.include_intermediate_paths = true ∧
    ["repo"] ∈ [["repo", "sub"], ["repo"]] :=
  ⟨rfl, rfl,
    (C1_upward_propagation rmDemo eDemo cfgEmpty rfl rfl).1 ["repo"] treeDemo 0 []
      [["repo", "sub"], ["repo"]]
      (by simp [get_included_paths_list, walk_children, rmDemo, eDemo, cfgEmpty, treeDemo,
        effMarkersPat, effMarkersExact, effIgnorePat, effIgnoreExact,
        markerHit, insertKey, notIgnoredName, isDirNode, isFileNode])⟩

/-- C2: in DirectoryMarker mode with yieldOnMarker = true, a readable
directory with a marker-matching direct child is recorded and the call
returns true immediately; the output gains exactly that one path, so
nothing below the directory is recorded through this call. -/
theorem C2_marker_short_circuit :
    ∀ (rm : RegexModel) (e : IncludeEntry) (config : Config)
      (path : List String) (node : FSNode) (depth : Nat)
      (output : List (List String)) (dc : List (String × FSNode)) (f : String → Bool),
      e.mode = Mode.Dir → e.yield_on_marker = true →
      readDir node = some dc →
      rm.setNew (effMarkersPat e config) = some f →
      markerHit (effMarkersExact e config) f dc = true →
      get_included_paths_list rm path node depth output e config
        = Except.ok (true, insertKey output path) := by
  intro rm e config path node depth output dc f hmode hyom hrd hm hhit
  exact classify_marker_shortcut path depth output e config hmode hyom hrd hm hhit

/-- Witness for C2: a directory holding a `.git` marker is recorded and
nothing else is added. -/
theorem C2_marker_short_circuit_w :
    markerHit (effMarkersExact eDemo cfgEmpty) (fun _ => false)
      [(".git", FSNode.file)] = true ∧
    get_included_paths_list rmDemo ["p"] (FSNode.dir true [(".git", FSNode.file)])
      0 [] eDemo cfgEmpty = Except.ok (true, insertKey [] ["p"]) :=
  ⟨by simp [markerHit, effMarkersExact, eDemo, cfgEmpty],
    C2_marker_short_circuit rmDemo eDemo cfgEmpty ["p"]
      (FSNode.dir true [(".git", FSNode.file)]) 0 [] [(".git", FSNode.file)]
      (fun _ => false) rfl rfl rfl
      (by simp [rmDemo, effMarkersPat, eDemo, cfgEmpty])
      (by simp [markerHit, effMarkersExact, eDemo, cfgEmpty])⟩

/-- Counterexample to C3 as stated: in FileListing mode with depth 0,
a file directly inside the root is recorded one segment below the
root, which is more than `depth = 0` levels below it. -/
theorem C3_depth_cex :
    get_included_paths_list rmDemo ["r"] (FSNode.dir true [("a", FSNode.file)])
      0 [] eFileCex cfgEmpty = Except.ok (true, [["r", "a"]]) ∧
    eFileCex.depth = 0 ∧ ["r", "a"] = ["r"] ++ ["a"] ∧
    eFileCex.depth < (["a"] : List String).length :=
  ⟨by simp [get_included_paths_list, walk_children, rmDemo, eFileCex, cfgEmpty,
      effMarkersPat, effMarkersExact, effIgnorePat, effIgnoreExact,
      markerHit, insertKey, notIgnoredName, isDirNode, isFileNode],
    rfl, rfl, by simp [eFileCex]⟩

/-- C3 (amended): a scan started at depth 0 records, beyond what was
already in the output, only paths of the form `root ++ s` with
`s.length ≤ depth` in DirectoryMarker mode and
`s.length ≤ depth + 1` in FileListing mode (recorded files sit one
segment below their directory, whose level is bounded by `depth`). -/
theorem C3_depth_bound :
    ∀ (rm : RegexModel) (e : IncludeEntry) (config : Config)
      (path : List String) (node : FSNode) (output : List (List String))
      (b : Bool) (out : List (List String)),
      get_included_paths_list rm path node 0 output e config = Except.ok (b, out) →
      ∀ q ∈ out, q ∈ output ∨ ∃ s, q = path ++ s ∧ s.length ≤ modeBound e := by
  intro rm e config path node output b out h q hq
  rcases classify_provenance (Nat.zero_le _) h q hq with h1 | ⟨s, hs1, hs2, _⟩
  · exact Or.inl h1
  · exact Or.inr ⟨s, hs1, by omega⟩

/-- Witness for C3 (amended) on the `treeDemo` scan: the recorded path
`repo/sub` is the root plus one segment, within the depth budget. -/
theorem C3_depth_bound_w :
    ["repo", "sub"] ∈ ([] : List (List String)) ∨
    ∃ s, ["repo", "sub"] = ["repo"] ++ s ∧ s.length ≤ modeBound eDemo :=
  C3_depth_bound rmDemo eDemo cfgEmpty ["repo"] treeDemo [] true
    [["repo", "sub"], ["repo"]]
    (by simp [get_included_paths_list, walk_children, rmDemo, eDemo, cfgEmpty, treeDemo,
      effMarkersPat, effMarkersExact, effIgnorePat, effIgnoreExact,
      markerHit, insertKey, notIgnoredName, isDirNode, isFileNode])
    ["repo", "sub"] (by simp)

/-- C4: a directory entry whose name is in the effective ignore set
(exact membership or pattern match) never survives the child filter,
and every path the classifier newly records is the call's own path
extended by names that are not ignored — so an ignored entry is never
recorded and never recursed into, whatever the marker sets say. -/
theorem C4_ignore_precedence :
    ∀ (rm : RegexModel) (e : IncludeEntry) (config : Config) (f : String → Bool),
      rm.setNew (effIgnorePat e config) = some f →
      ((∀ dc entries, get_not_ignored_dir_entries rm e dc config = Except.ok entries →
          ∀ c ∈ dc, (c.1 ∈ effIgnoreExact e config ∨ f c.1 = true) → c ∉ entries)
      ∧ (∀ path node depth output b out, depth ≤ e.depth →
          get_included_paths_list rm path node depth output e config = Except.ok (b, out) →
          ∀ q ∈ out, q ∉ output → ∃ s, q = path ++ s ∧
            ∀ nm ∈ s, nm ∉ effIgnoreExact e config ∧ f nm = false)) := by
  intro rm e config f hf
  constructor
  · intro dc entries hge c hc hig hmem
    rw [get_not_ignored_eq dc hf] at hge
    injection hge with h2
    rw [← h2] at hmem
    have h3 := (List.mem_filter.mp hmem).2
    unfold notIgnoredName at h3
    simp only [Bool.and_eq_true, Bool.not_eq_true'] at h3
    obtain ⟨⟨hh, hcontains⟩, hf3⟩ := h3
    rcases hig with hig | hig
    · have h4 : c.1 ∉ effIgnoreExact e config := by simpa using hcontains
      exact h4 hig
    · rw [hf3] at hig
      exact Bool.noConfusion hig
  · intro path node depth output b out hdep h q hq hqo
    rcases classify_provenance hdep h q hq with h1 | ⟨s, hs1, _, hs3⟩
    · exact absurd h1 hqo
    · refine ⟨s, hs1, ?_⟩
      intro nm hnm
      obtain ⟨f2, hf2, hni⟩ := hs3 nm hnm
      rw [hf] at hf2
      injection hf2 with hf3
      subst hf3
      unfold notIgnoredName at hni
      simp only [Bool.and_eq_true, Bool.not_eq_true'] at hni
      obtain ⟨⟨hh, hcontains⟩, hf4⟩ := hni
      exact ⟨by simpa using hcontains, hf4⟩

/-- Witness for C4: an entry named `node_modules` (in the effective
ignore set) is filtered out of the surviving entries. -/
theorem C4_ignore_precedence_w :
    ("node_modules", FSNode.dir true []) ∉ ([] : List (String × FSNode)) :=
  (C4_ignore_precedence rmDemo eIgn cfgEmpty (fun _ => false)
    (by simp [rmDemo, effIgnorePat, eIgn, cfgEmpty])).1
    [("node_modules", FSNode.dir true [])] []
    (by simp [get_not_ignored_dir_entries, rmDemo, effIgnorePat, effIgnoreExact,
      eIgn, cfgEmpty, notIgnoredName])
    ("node_modules", FSNode.dir true []) (by simp)
    (Or.inl (by simp [effIgnoreExact, eIgn, cfgEmpty]))

/-- C5: a full picker run over any include entries and roots — also
overlapping ones — writing into one shared output collection leaves the
output without duplicates: the recorded paths are pairwise distinct. -/
theorem C5_no_duplicates :
    ∀ (rm : RegexModel) (config : Config)
      (includes : List (IncludeEntry × List (List String × FSNode)))
      (out : List (List String)),
      pick_project_list rm config includes [] = Except.ok out → out.Nodup := by
  intro rm config includes out h
  exact pick_project_nodup includes [] out List.nodup_nil h

/-- Witness for C5: scanning the same root twice in one run yields each
path once. -/
theorem C5_no_duplicates_w : List.Nodup [(["r"] : List String)] :=
  C5_no_duplicates rmDemo cfgEmpty
    [(eDemo, [(["r"], FSNode.dir true [(".git", FSNode.file)]),
              (["r"], FSNode.dir true [(".git", FSNode.file)])])]
    [["r"]]
    (by simp [pick_project_list, run_roots, get_included_paths_list,
      rmDemo, eDemo, cfgEmpty, effMarkersPat, effMarkersExact,
      markerHit, insertKey])

/-- Counterexample to C6 as stated: with `"*"` among the exact markers,
a readable directory with one entry named `a` does not yield — there is
no wildcard semantics in the marker scan. -/
theorem C6_wildcard_cex :
    "*" ∈ effMarkersExact eStar cfgEmpty ∧
    get_included_paths_list rmDemo ["r"] (FSNode.dir true [("a", FSNode.dir true [])])
      0 [] eStar cfgEmpty = Except.ok (false, []) :=
  ⟨by simp [effMarkersExact, eStar, cfgEmpty],
    by simp [get_included_paths_list, rmDemo, eStar, cfgEmpty,
      effMarkersPat, effMarkersExact, markerHit, insertKey]⟩

/-- C6 (amended): a marker value `"*"` in the exact set is matched only
by literal name equality: a directory with a child literally named `"*"`
yields (and short-circuits under yieldOnMarker), while a directory none
of whose children's names are in the effective exact marker set or match
a pattern does not yield on the marker scan. -/
theorem C6_star_literal :
    ∀ (rm : RegexModel) (e : IncludeEntry) (config : Config)
      (path : List String) (node : FSNode) (depth : Nat)
      (output : List (List String)) (dc : List (String × FSNode)) (f : String → Bool),
      e.mode = Mode.Dir → e.yield_on_marker = true →
      readDir node = some dc → rm.setNew (effMarkersPat e config) = some f →
      "*" ∈ effMarkersExact e config →
      (((∃ c ∈ dc, c.1 = "*") →
          get_included_paths_list rm path node depth output e config
            = Except.ok (true, insertKey output path))
      ∧ ((∀ c ∈ dc, c.1 ∉ effMarkersExact e config ∧ f c.1 = false) →
          e.depth ≤ depth →
          get_included_paths_list rm path node depth output e config
            = Except.ok (false, output))) := by
  intro rm e config path node depth output dc f hmode hyom hrd hm hstar
  constructor
  · intro hex
    obtain ⟨c, hcdc, hcname⟩ := hex
    have hhit : markerHit (effMarkersExact e config) f dc = true := by
      unfold markerHit
      rw [List.any_eq_true]
      refine ⟨c, hcdc, ?_⟩
      have hc1 : (effMarkersExact e config).contains c.1 = true := by
        rw [hcname]
        simpa using hstar
      rw [hc1]
      simp
    exact classify_marker_shortcut path depth output e config hmode hyom hrd hm hhit
  · intro hall hdep
    have hhit : markerHit (effMarkersExact e config) f dc = false := by
      unfold markerHit
      rw [List.any_eq_false]
      intro c hcdc
      obtain ⟨h1, h2⟩ := hall c hcdc
      have hc1 : (effMarkersExact e config).contains c.1 = false := by
        simpa using h1
      rw [hc1, h2]
      simp
    exact classify_dir_nohit_depth path depth output e config hmode hrd hm hhit hdep

/-- Witness for C6 (amended): a child literally named `"*"` makes the
directory yield; a child named `b` does not. -/
theorem C6_star_literal_w :
    (get_included_paths_list rmDemo ["r"] (FSNode.dir true [("*", FSNode.dir true [])])
      0 [] eStar cfgEmpty = Except.ok (true, insertKey [] ["r"])) ∧
    (get_included_paths_list rmDemo ["r2"] (FSNode.dir true [("b", FSNode.dir true [])])
      0 [] eStar cfgEmpty = Except.ok (false, [])) :=
  ⟨(C6_star_literal rmDemo eStar cfgEmpty ["r"] (FSNode.dir true [("*", FSNode.dir true [])])
      0 [] [("*", FSNode.dir true [])] (fun _ => false) rfl rfl rfl
      (by simp [rmDemo, effMarkersPat, eStar, cfgEmpty])
      (by simp [effMarkersExact, eStar, cfgEmpty])).1
      ⟨("*", FSNode.dir true []), by simp, rfl⟩,
    (C6_star_literal rmDemo eStar cfgEmpty ["r2"] (FSNode.dir true [("b", FSNode.dir true [])])
      0 [] [("b", FSNode.dir true [])] (fun _ => false) rfl rfl rfl
      (by simp [rmDemo, effMarkersPat, eStar, cfgEmpty])
      (by simp [effMarkersExact, eStar, cfgEmpty])).2
      (by simp [effMarkersExact, eStar, cfgEmpty]) (by simp [eStar])⟩

/-- Counterexample to C7 as stated: with an invalid effective ignore
pattern (`"*"` does not compile), classification of a root whose marker
matches succeeds and records a path — no error surfaces at startup,
and a directory was read before any compilation of the ignore set. -/
theorem C7_startup_cex :
    rmDemo.setNew (effIgnorePat eBadIgnorePat cfgEmpty) = none ∧
    get_included_paths_list rmDemo ["r"] (FSNode.dir true [(".git", FSNode.dir true [])])
      0 [] eBadIgnorePat cfgEmpty = Except.ok (true, [["r"]]) :=
  ⟨by simp [rmDemo, effIgnorePat, eBadIgnorePat, cfgEmpty],
    by simp [get_included_paths_list, rmDemo, eBadIgnorePat, cfgEmpty,
      effMarkersPat, effMarkersExact, markerHit, insertKey]⟩

/-- C7 (amended): pattern sets are compiled per directory visit, after
the directory is read. An invalid effective marker pattern set makes
every call fail on its first readable directory before recording
anything — an unreadable root still returns `Ok(false)` with the output
untouched, a readable one returns the compile error with the output
untouched. (An invalid ignore pattern set, by `C7_startup_cex`, may
never surface at all.) -/
theorem C7_pattern_compile :
    ∀ (rm : RegexModel) (e : IncludeEntry) (config : Config)
      (path : List String) (node : FSNode) (depth : Nat) (output : List (List String)),
      rm.setNew (effMarkersPat e config) = none →
      ((readDir node = none →
          get_included_paths_list rm path node depth output e config
            = Except.ok (false, output))
      ∧ (∀ dc, readDir node = some dc →
          get_included_paths_list rm path node depth output e config = Except.error ())) := by
  intro rm e config path node depth output hm
  exact ⟨fun hrd => classify_unread path depth output e config hrd,
    fun dc hrd => classify_markers_err path depth output e config hrd hm⟩

/-- Witness for C7 (amended): an invalid marker pattern set errors on a
readable root and is silent on an unreadable one. -/
theorem C7_pattern_compile_w :
    rmDemo.setNew (effMarkersPat eBadMarkerPat cfgEmpty) = none ∧
    get_included_paths_list rmDemo ["p"] (FSNode.dir false []) 0 [] eBadMarkerPat cfgEmpty
      = Except.ok (false, []) ∧
    get_included_paths_list rmDemo ["p"] (FSNode.dir true [("a", FSNode.file)]) 0 []
      eBadMarkerPat cfgEmpty = Except.error () :=
  ⟨by simp [rmDemo, effMarkersPat, eBadMarkerPat, cfgEmpty],
    (C7_pattern_compile rmDemo eBadMarkerPat cfgEmpty ["p"] (FSNode.dir false []) 0 []
      (by simp [rmDemo, effMarkersPat, eBadMarkerPat, cfgEmpty])).1 rfl,
    (C7_pattern_compile rmDemo eBadMarkerPat cfgEmpty ["p"]
      (FSNode.dir true [("a", FSNode.file)]) 0 []
      (by simp [rmDemo, effMarkersPat, eBadMarkerPat, cfgEmpty])).2
      [("a", FSNode.file)] rfl⟩

/-- C8: a path whose directory cannot be read yields `Ok(false)` with
the output collection unchanged — unreadable directories are silently
skipped, not an error. -/
theorem C8_unreadable_dir :
    ∀ (rm : RegexModel) (e : IncludeEntry) (config : Config)
      (path : List String) (node : FSNode) (depth : Nat) (output : List (List String)),
      readDir node = none →
      get_included_paths_list rm path node depth output e config
        = Except.ok (false, output) := by
  intro rm e config path node depth output h
  exact classify_unread path depth output e config h

/-- Witness for C8: an unreadable directory (even one containing a
marker) is treated as empty. -/
theorem C8_unreadable_dir_w :
    readDir (FSNode.dir false [(".git", FSNode.dir true [])]) = none ∧
    get_included_paths_list rmDemo ["p"] (FSNode.dir false [(".git", FSNode.dir true [])])
      0 [] eDemo cfgEmpty = Except.ok (false, []) :=
  ⟨rfl, C8_unreadable_dir rmDemo eDemo cfgEmpty ["p"]
    (FSNode.dir false [(".git", FSNode.dir true [])]) 0 [] rfl⟩

/-- Counterexample to C9 as stated: with both chaining flags true and
the global traverseHidden true, a hidden entry is still filtered out
because the entry's own `markers.traverse_hidden` is false — the global
value is not merged in. -/
theorem C9_hidden_cex :
    cfgHidden.markers.traverse_hidden = true ∧
    eHidden.markers.chain_root_markers = true ∧
    eHidden.ignore.chain_root_ignore = true ∧
    eHidden.markers.traverse_hidden = false ∧
    get_not_ignored_dir_entries rmDemo eHidden [(".hidden", FSNode.dir true [])] cfgHidden
      = Except.ok [] :=
  ⟨rfl, rfl, rfl, rfl,
    by simp [get_not_ignored_dir_entries, rmDemo, effIgnorePat, effIgnoreExact,
      eHidden, cfgHidden, notIgnoredName, startsWithDot]⟩

/-- C9 (amended): the hidden-name filter is governed solely by the
entry's own `markers.traverse_hidden`: the filter result is invariant
under the root-level traverseHidden value, and with the entry flag
false every hidden entry (leading `.`) is filtered out. -/
theorem C9_traverse_hidden :
    ∀ (rm : RegexModel) (e : IncludeEntry) (dc : List (String × FSNode))
      (config : Config) (b : Bool),
      (get_not_ignored_dir_entries rm e dc
          { config with markers := { config.markers with traverse_hidden := b } }
        = get_not_ignored_dir_entries rm e dc config)
      ∧ (e.markers.traverse_hidden = false →
          ∀ entries, get_not_ignored_dir_entries rm e dc config = Except.ok entries →
            ∀ c ∈ dc, startsWithDot c.1 = true → c ∉ entries) := by
  intro rm e dc config b
  constructor
  · rfl
  · intro hth entries hge c hc hdot hmem
    obtain ⟨f, hfm, hpass⟩ := get_not_ignored_passes hge
    have h3 := hpass c hmem
    unfold notIgnoredName at h3
    rw [hdot, hth] at h3
    simp at h3

/-- Witness for C9 (amended): flipping the global traverseHidden does
not change the filter, and the hidden entry stays excluded. -/
theorem C9_traverse_hidden_w :
    (get_not_ignored_dir_entries rmDemo eHidden [(".hidden", FSNode.dir true [])]
        { cfgHidden with markers := { cfgHidden.markers with traverse_hidden := false } }
      = get_not_ignored_dir_entries rmDemo eHidden [(".hidden", FSNode.dir true [])] cfgHidden) ∧
    (".hidden", FSNode.dir true []) ∉ ([] : List (String × FSNode)) :=
  ⟨(C9_traverse_hidden rmDemo eHidden [(".hidden", FSNode.dir true [])] cfgHidden false).1,
    (C9_traverse_hidden rmDemo eHidden [(".hidden", FSNode.dir true [])] cfgHidden false).2
      rfl []
      (by simp [get_not_ignored_dir_entries, rmDemo, effIgnorePat, effIgnoreExact,
        eHidden, cfgHidden, notIgnoredName, startsWithDot])
      (".hidden", FSNode.dir true []) (by simp) (by decide)⟩

/-- C10: the marker scan runs over the raw directory contents, before
ignore and hidden filtering: a directory with a marker-matching child
yields even when that child's name is in the effective ignore set or is
hidden while hidden traversal is off. -/
theorem C10_marker_before_filter :
    ∀ (rm : RegexModel) (e : IncludeEntry) (config : Config)
      (path : List String) (node : FSNode) (depth : Nat)
      (output : List (List String)) (dc : List (String × FSNode))
      (f : String → Bool) (b : Bool) (out : List (List String)),
      e.mode = Mode.Dir → readDir node = some dc →
      rm.setNew (effMarkersPat e config) = some f →
      (∃ c ∈ dc, (c.1 ∈ effMarkersExact e config ∨ f c.1 = true) ∧
        (c.1 ∈ effIgnoreExact e config ∨
          (startsWithDot c.1 = true ∧ e.markers.traverse_hidden = false))) →
      get_included_paths_list rm path node depth output e config = Except.ok (b, out) →
      b = true := by
  intro rm e config path node depth output dc f b out hmode hrd hm hex h
  obtain ⟨c, hcdc, hcmark, _⟩ := hex
  have hhit : markerHit (effMarkersExact e config) f dc = true := by
    unfold markerHit
    rw [List.any_eq_true]
    refine ⟨c, hcdc, ?_⟩
    rcases hcmark with h1 | h1
    · have hc1 : (effMarkersExact e config).contains c.1 = true := by simpa using h1
      rw [hc1]
      simp
    · rw [h1]
      simp
  rw [classify_dir_eq path depth output e config hrd hm hmode, hhit] at h
  simp only [Bool.true_and] at h
  cases hyom : e.yield_on_marker with
  | true =>
      rw [hyom, if_pos rfl] at h
      injection h with h2
      injection h2 with h3 h4
      exact h3.symm
  | false =>
      rw [hyom] at h
      rw [if_neg (by simp)] at h
      by_cases h2 : e.depth ≤ depth
      · rw [if_pos h2] at h
        injection h with h3
        injection h3 with h4 h5
        exact h4.symm
      · rw [if_neg h2] at h
        cases hge : get_not_ignored_dir_entries rm e dc config with
        | error er => rw [hge] at h; simp at h
        | ok entries =>
            rw [hge] at h
            dsimp only at h
            cases hw : walk_children rm path (entries.filter (fun c => isDirNode c.2))
                depth true output e config with
            | error er => rw [hw] at h; simp at h
            | ok wr =>
                obtain ⟨py, wout⟩ := wr
                rw [hw] at h
                dsimp only at h
                injection h with h3
                injection h3 with h4 h5
                have h6 := walk_flag_mono (entries.filter (fun c => isDirNode c.2))
                  path depth output (py, wout) hw
                rw [← h4]
                exact h6

/-- Witness for C10: a `.git` child that is both in the effective
ignore set and hidden (with hidden traversal off) still makes its
directory yield. -/
theorem C10_marker_before_filter_w :
    startsWithDot ".git" = true ∧
    eMarkedIgnored.markers.traverse_hidden = false ∧
    ".git" ∈ effIgnoreExact eMarkedIgnored cfgEmpty ∧
    (true : Bool) = true :=
  ⟨by decide, rfl, by simp [effIgnoreExact, eMarkedIgnored, cfgEmpty],
    C10_marker_before_filter rmDemo eMarkedIgnored cfgEmpty ["r"]
      (FSNode.dir true [(".git", FSNode.dir true [])]) 0 []
      [(".git", FSNode.dir true [])] (fun _ => false) true [["r"]]
      rfl rfl (by simp [rmDemo, effMarkersPat, eMarkedIgnored, cfgEmpty])
      ⟨(".git", FSNode.dir true []), by simp,
        Or.inl (by simp [effMarkersExact, eMarkedIgnored, cfgEmpty]),
        Or.inr ⟨by decide, rfl⟩⟩
      (by simp [get_included_paths_list, walk_children, rmDemo, eMarkedIgnored, cfgEmpty,
        effMarkersPat, effMarkersExact, effIgnorePat, effIgnoreExact,
        markerHit, insertKey, notIgnoredName, isDirNode, isFileNode])⟩

end Pfp
